import Mathlib

/-!
Shallow embedding of the VidKit timeline edit engine and render compiler
(`backend/models/project.py`, `backend/edit/engine.py`,
`backend/edit/transcript.py`, `backend/render/ffmpeg.py`).

Python floats are modelled as exact rationals (`ℚ`); Python ints as `ℕ`/`ℤ`;
Python strings as `String`.  Mutation of the `Project` dataclass is modelled
by explicit state passing: every handler returns the updated project.
-/

namespace VidKit

/-- `SceneType` enum from `backend/models/project.py`. -/
inductive SceneType where
  | talking_head
  | screen_recording
  | broll
  | text_slide
  | dead_air
  | unknown
deriving DecidableEq, Repr

/-- `EditKind` enum from `backend/models/project.py`. -/
inductive EditKind where
  | delete
  | reorder
  | trim
  | speed
  | split
  | merge
  | text_overlay
  | transition
  | crop
deriving DecidableEq, Repr

/-- `TranscriptWord` dataclass. -/
structure TranscriptWord where
  word : String
  start : ℚ
  «end» : ℚ
  confidence : ℚ := 1
  is_filler : Bool := false
deriving DecidableEq, Repr

/-- `TextOverlay` dataclass. -/
structure TextOverlay where
  text : String := ""
  position : String := "bottom"
  start_offset : ℚ := 0
  duration : ℚ := 0
  font_size : ℕ := 48
  color : String := "white"
  bg_color : String := "black@0.5"
deriving DecidableEq, Repr

/-- `Scene` dataclass. -/
structure Scene where
  id : String
  start : ℚ
  «end» : ℚ
  scene_type : SceneType := SceneType.unknown
  description : String := ""
  transcript : List TranscriptWord := []
  thumbnail_path : String := ""
  energy : ℚ := 1/2
  quality_score : ℚ := 1/2
  has_speech : Bool := false
  is_filler : Bool := false
  is_dead_air : Bool := false
  speed : ℚ := 1
  overlays : List TextOverlay := []
  transition_in : String := ""
  transition_duration : ℚ := 1/2
deriving DecidableEq, Repr

/-- `Scene.duration` property: `(end - start) / speed` (effective duration). -/
def Scene.duration (s : Scene) : ℚ := (s.«end» - s.start) / s.speed

/-- `Scene.raw_duration` property: `end - start` (source footage length). -/
def Scene.raw_duration (s : Scene) : ℚ := s.«end» - s.start

/-- The dynamic string-keyed `params` dict of an `Edit`, modelled as a record
of optional typed fields; `params.get(key, default)` becomes `Option.getD`. -/
structure EditParams where
  new_index : Option ℤ := none
  trim_start : Option ℚ := none
  trim_end : Option ℚ := none
  speed : Option ℚ := none
  split_at : Option ℚ := none
  text : Option String := none
  position : Option String := none
  start_offset : Option ℚ := none
  duration : Option ℚ := none
  font_size : Option ℕ := none
  color : Option String := none
  bg_color : Option String := none
  type : Option String := none
  width : Option ℕ := none
  height : Option ℕ := none
deriving DecidableEq, Repr

/-- `Edit` dataclass. -/
structure Edit where
  kind : EditKind
  target_scene_id : String := ""
  params : EditParams := {}
  timestamp : ℚ := 0
deriving DecidableEq, Repr

/-- The dict produced by `_scene_to_dict` in `backend/models/project.py`:
the same keys as `Scene`, with `scene_type` stored as its string `value`.
The JSON undo snapshots (`snapshots: list[str]`) are modelled as the parsed
form of the serialized scene lists: each snapshot is a `List SceneDict`;
JSON round-trips this structure byte-for-byte. -/
structure SceneDict where
  id : String
  start : ℚ
  «end» : ℚ
  scene_type : String
  description : String
  transcript : List TranscriptWord
  thumbnail_path : String
  energy : ℚ
  quality_score : ℚ
  has_speech : Bool
  is_filler : Bool
  is_dead_air : Bool
  speed : ℚ
  overlays : List TextOverlay
  transition_in : String
  transition_duration : ℚ
deriving DecidableEq, Repr

/-- `SceneType.value` (the string payload of the Python `str` enum). -/
def SceneType.value : SceneType → String
  | .talking_head => "talking_head"
  | .screen_recording => "screen_recording"
  | .broll => "broll"
  | .text_slide => "text_slide"
  | .dead_air => "dead_air"
  | .unknown => "unknown"

/-- `SceneType(str)` enum lookup used by `_scenes_from_list` (defaults to
`unknown` only for the default argument; every stored value is valid). -/
def SceneType.ofValue (v : String) : SceneType :=
  if v = "talking_head" then .talking_head
  else if v = "screen_recording" then .screen_recording
  else if v = "broll" then .broll
  else if v = "text_slide" then .text_slide
  else if v = "dead_air" then .dead_air
  else .unknown

/-- `_scene_to_dict` from `backend/models/project.py`: the transcript-word and
overlay dicts carry exactly the fields of the dataclasses, so they are kept
as-is. -/
def sceneToDict (s : Scene) : SceneDict :=
  { id := s.id, start := s.start, «end» := s.«end»,
    scene_type := s.scene_type.value,
    description := s.description,
    transcript := s.transcript,
    thumbnail_path := s.thumbnail_path,
    energy := s.energy, quality_score := s.quality_score,
    has_speech := s.has_speech, is_filler := s.is_filler,
    is_dead_air := s.is_dead_air,
    speed := s.speed,
    overlays := s.overlays,
    transition_in := s.transition_in,
    transition_duration := s.transition_duration }

/-- One scene of `_scenes_from_list` from `backend/models/project.py`. -/
def sceneFromDict (d : SceneDict) : Scene :=
  { id := d.id, start := d.start, «end» := d.«end»,
    scene_type := SceneType.ofValue d.scene_type,
    description := d.description,
    transcript := d.transcript,
    thumbnail_path := d.thumbnail_path,
    energy := d.energy, quality_score := d.quality_score,
    has_speech := d.has_speech, is_filler := d.is_filler,
    is_dead_air := d.is_dead_air, speed := d.speed,
    overlays := d.overlays,
    transition_in := d.transition_in,
    transition_duration := d.transition_duration }

/-- `_scenes_from_list`. -/
def scenesFromList (ds : List SceneDict) : List Scene := ds.map sceneFromDict

/-- `Project` dataclass (fields in source order; `id`, `name` etc. kept even
where no claim mentions them). -/
structure Project where
  id : String := ""
  name : String := ""
  source_path : String := ""
  duration : ℚ := 0
  width : ℕ := 0
  height : ℕ := 0
  fps : ℚ := 30
  scenes : List Scene := []
  edits : List Edit := []
  snapshots : List (List SceneDict) := []
  crop_width : ℕ := 0
  crop_height : ℕ := 0
  voiceover_path : String := ""
  voiceover_text : String := ""
  voiceover_voice : String := ""
  voiceover_volume : ℚ := 1
  original_audio_volume : ℚ := 0
  status : String := "created"
  error : String := ""
  created_at : ℚ := 0
deriving DecidableEq, Repr

/-- `Project.snapshot`: append the serialized scene list, keep at most the
last 50 snapshots (`self.snapshots[-50:]` when the length exceeds 50). -/
def Project.snapshotPush (p : Project) : Project :=
  let l := p.snapshots ++ [p.scenes.map sceneToDict]
  { p with snapshots := if 50 < l.length then l.drop (l.length - 50) else l }

/-- `Project.undo`: pop the most recent snapshot, restore the scene list from
it, pop the last edit-log entry if any; `none` models `return False` on an
empty snapshot stack. -/
def Project.undo (p : Project) : Option Project :=
  match p.snapshots.getLast? with
  | none => none
  | some snap =>
      some { p with snapshots := p.snapshots.dropLast,
                    scenes := scenesFromList snap,
                    edits := p.edits.dropLast }

/-! ## Edit engine (`backend/edit/engine.py`)

The Python handlers walk `project.scenes` with a `for`/`break` loop that
mutates the first scene whose id matches; this is modelled by structural
recursion on the scene list. -/

/-- The `for scene in scenes: if scene.id == tid: ...; break` pattern:
apply `f` to the first scene with the target id, leave the rest alone. -/
def updateFirst (tid : String) (f : Scene → Scene) : List Scene → List Scene
  | [] => []
  | s :: rest => if s.id = tid then f s :: rest else s :: updateFirst tid f rest

/-- Python `list.insert(i, x)`: a negative index counts from the end
(clamped at 0), an index past the end appends. -/
def pyInsertIdx (l : List α) (i : ℤ) (x : α) : List α :=
  let n : ℕ := if i < 0 then ((l.length : ℤ) + i).toNat else min i.toNat l.length
  l.insertIdx n x

/-- Python `str.strip(chars)`: drop the given characters from both ends. -/
def pyStrip (chars : List Char) (s : String) : String :=
  String.mk (((s.toList.dropWhile (· ∈ chars)).reverse.dropWhile (· ∈ chars)).reverse)

/-- `_delete_scene`. -/
def deleteSceneEdit (p : Project) (e : Edit) : Project :=
  { p with scenes := p.scenes.filter (fun s => s.id ≠ e.target_scene_id) }

/-- `_reorder_scene`: `scenes.remove(scene)` removes the first element equal
to the scene found by id; since value-equal scenes share the id and `next`
returns the first id match, this is `eraseP` on the id predicate.  The
reinsertion index is Python `insert(min(new_index, len(scenes)), scene)`
evaluated after removal. -/
def reorderSceneEdit (p : Project) (e : Edit) : Project :=
  let new_index : ℤ := e.params.new_index.getD 0
  match p.scenes.find? (fun s => s.id == e.target_scene_id) with
  | none => p
  | some scene =>
      let rest := p.scenes.eraseP (fun s => s.id == e.target_scene_id)
      { p with scenes := pyInsertIdx rest (min new_index (rest.length : ℤ)) scene }

/-- `_trim_scene`: shift `start` up by `trim_start`, `end` down by
`trim_end`, then re-filter the transcript against the new bounds. -/
def trimSceneEdit (p : Project) (e : Edit) : Project :=
  let trim_start : ℚ := e.params.trim_start.getD 0
  let trim_end : ℚ := e.params.trim_end.getD 0
  { p with scenes := updateFirst e.target_scene_id (fun s =>
      let start := s.start + trim_start
      let stop := s.«end» - trim_end
      { s with start := start, «end» := stop,
               transcript := s.transcript.filter
                 (fun w => start ≤ w.start ∧ w.«end» ≤ stop) }) p.scenes }

/-- `_speed_scene`: set the speed clamped into `[0.25, 4.0]`. -/
def speedSceneEdit (p : Project) (e : Edit) : Project :=
  let speed : ℚ := e.params.speed.getD 1
  { p with scenes := updateFirst e.target_scene_id (fun s =>
      { s with speed := max (1/4) (min 4 speed) }) p.scenes }

/-- `_split_scene`: on the first scene with the target id, no-op unless the
absolute split point is strictly inside `(start, end)`; otherwise mint the
tail scene `id ++ "b"` (fields not passed to the constructor take the
dataclass defaults) and truncate the original, inserting the tail right
after it. -/
def splitInList (tid : String) (split_at : ℚ) : List Scene → List Scene
  | [] => []
  | s :: rest =>
      if s.id = tid then
        let abs_split := s.start + split_at
        if abs_split ≤ s.start ∨ s.«end» ≤ abs_split then s :: rest
        else
          let s2 : Scene :=
            { id := s.id ++ "b", start := abs_split, «end» := s.«end»,
              scene_type := s.scene_type, description := s.description,
              transcript := s.transcript.filter (fun w => abs_split ≤ w.start),
              thumbnail_path := s.thumbnail_path,
              energy := s.energy, quality_score := s.quality_score,
              has_speech := s.has_speech, speed := s.speed }
          { s with «end» := abs_split,
                   transcript := s.transcript.filter (fun w => w.«end» ≤ abs_split) }
            :: s2 :: rest
      else s :: splitInList tid split_at rest

/-- `_split_scene` wrapper. -/
def splitSceneEdit (p : Project) (e : Edit) : Project :=
  let split_at : ℚ := e.params.split_at.getD 0
  { p with scenes := splitInList e.target_scene_id split_at p.scenes }

/-- `_merge_scenes`: merge the first scene with the target id into its
immediate successor; if the match is the last scene the loop falls through
without effect. -/
def mergeInList (tid : String) : List Scene → List Scene
  | [] => []
  | [s] => [s]
  | s :: t :: rest =>
      if s.id = tid then
        { s with «end» := t.«end»,
                 transcript := s.transcript ++ t.transcript,
                 has_speech := s.has_speech || t.has_speech,
                 description := pyStrip [';', ' '] (s.description ++ "; " ++ t.description),
                 energy := max s.energy t.energy,
                 quality_score := min s.quality_score t.quality_score } :: rest
      else s :: mergeInList tid (t :: rest)

/-- `_merge_scenes` wrapper. -/
def mergeScenesEdit (p : Project) (e : Edit) : Project :=
  { p with scenes := mergeInList e.target_scene_id p.scenes }

/-- `_text_overlay`. -/
def textOverlayEdit (p : Project) (e : Edit) : Project :=
  { p with scenes := updateFirst e.target_scene_id (fun s =>
      { s with overlays := s.overlays ++ [{
          text := e.params.text.getD "",
          position := e.params.position.getD "bottom",
          start_offset := e.params.start_offset.getD 0,
          duration := e.params.duration.getD 0,
          font_size := e.params.font_size.getD 48,
          color := e.params.color.getD "white",
          bg_color := e.params.bg_color.getD "black@0.5" }] }) p.scenes }

/-- `_transition`. -/
def transitionEdit (p : Project) (e : Edit) : Project :=
  { p with scenes := updateFirst e.target_scene_id (fun s =>
      { s with transition_in := e.params.type.getD "fade",
               transition_duration := e.params.duration.getD (1/2) }) p.scenes }

/-- `_crop`: sets the project-level crop override (not per-scene). -/
def cropEdit (p : Project) (e : Edit) : Project :=
  { p with crop_width := e.params.width.getD p.width,
           crop_height := e.params.height.getD p.height }

/-- `apply_edit`: push a snapshot, append the edit to the log, then dispatch
on the kind (the handler dict contains every `EditKind`, so the lookup never
misses). -/
def applyEdit (p : Project) (e : Edit) : Project :=
  let p := p.snapshotPush
  let p := { p with edits := p.edits ++ [e] }
  match e.kind with
  | .delete => deleteSceneEdit p e
  | .reorder => reorderSceneEdit p e
  | .trim => trimSceneEdit p e
  | .speed => speedSceneEdit p e
  | .split => splitSceneEdit p e
  | .merge => mergeScenesEdit p e
  | .text_overlay => textOverlayEdit p e
  | .transition => transitionEdit p e
  | .crop => cropEdit p e

/-- `apply_edits`. -/
def applyEdits (p : Project) (es : List Edit) : Project :=
  es.foldl applyEdit p

/-! ## Transcript-based editing (`backend/edit/transcript.py`)

`delete_text_range` first materializes `affected_scenes` from the current
scene list and then iterates over it while mutating the project; the branch
conditions read the captured scene objects.  Scene ids produced by `split`
never collide with ids of other captured scenes in the inputs considered
here, so the captured values equal the objects' values at iteration time. -/

/-- Body of the `for scene in affected_scenes` loop of `delete_text_range`. -/
def deleteRangeStep (start_time end_time : ℚ) (proj : Project) (s : Scene) : Project :=
  if start_time ≤ s.start ∧ s.«end» ≤ end_time then
    applyEdit proj { kind := .delete, target_scene_id := s.id }
  else if s.start < start_time ∧ end_time < s.«end» then
    let proj := applyEdit proj
      { kind := .split, target_scene_id := s.id,
        params := { split_at := some (start_time - s.start) } }
    let mid_id := s.id ++ "b"
    match proj.scenes.find? (fun t => t.id == mid_id) with
    | none => proj
    | some mid =>
        let proj := applyEdit proj
          { kind := .split, target_scene_id := mid_id,
            params := { split_at := some (end_time - mid.start) } }
        applyEdit proj { kind := .delete, target_scene_id := mid_id }
  else if s.start < start_time then
    applyEdit proj
      { kind := .trim, target_scene_id := s.id,
        params := { trim_end := some (s.«end» - start_time) } }
  else if end_time < s.«end» then
    applyEdit proj
      { kind := .trim, target_scene_id := s.id,
        params := { trim_start := some (end_time - s.start) } }
  else proj

/-- `delete_text_range`. -/
def deleteTextRange (p : Project) (start_time end_time : ℚ) : Project :=
  let affected := p.scenes.filter (fun s => s.start < end_time ∧ start_time < s.«end»)
  affected.foldl (deleteRangeStep start_time end_time) p

/-- `delete_word`: range is the word interval widened by a 50 ms buffer. -/
def deleteWord (p : Project) (w : TranscriptWord) : Project :=
  deleteTextRange p (w.start - 1/20) (w.«end» + 1/20)

/-- `FILLER_WORDS` from `backend/core/transcriber.py`. -/
def FILLER_WORDS : List String :=
  ["um", "uh", "erm", "uhm", "hmm", "you know", "basically", "literally", "i mean"]

/-- The filler test `word.word.lower().strip(".,!?") in FILLER_WORDS`. -/
def isFillerText (w : TranscriptWord) : Bool :=
  pyStrip ['.', ',', '!', '?'] w.word.toLower ∈ FILLER_WORDS

/-- `delete_all_filler_words`: collect filler words across all scenes, sort
by start time descending (Python's stable sort with `reverse=True`), delete
each via `delete_word`, then sweep scenes with `raw_duration <= 0.05`. -/
def deleteAllFillerWords (p : Project) : Project :=
  let fillers := (p.scenes.map (fun s => s.transcript.filter isFillerText)).flatten
  let fillers := fillers.mergeSort (fun a b => b.start ≤ a.start)
  let p := fillers.foldl deleteWord p
  { p with scenes := p.scenes.filter (fun s => (1/20 : ℚ) < s.raw_duration) }

/-! ## Render engine numerics (`backend/render/ffmpeg.py`)

The render functions shell out to `ffmpeg`/`ffprobe`; only their pure
numeric decisions are embedded.  Python floats become exact rationals. -/

/-- Python `f"{x:.4f}"`, modelled as rounding to 4 decimal places (on the
rationals arising here the value is exactly representable, so the rounding
mode is immaterial). -/
def roundTo4 (q : ℚ) : ℚ := (round (q * 10000) : ℤ) / 10000

/-- The `while remaining > 2.0` loop of `_build_atempo_chain`, embedded with
a fuel bound (64 halvings cover every float input the callers produce; for
the speeds in `[0.25, 4]` treated by the theorems a single iteration runs). -/
def atempoHalveLoop : ℕ → ℚ → List ℚ × ℚ
  | 0, r => ([], r)
  | n + 1, r =>
      if 2 < r then
        let p := atempoHalveLoop n (r / 2)
        ((2 : ℚ) :: p.1, p.2)
      else ([], r)

/-- The `while remaining < 0.5` loop of `_build_atempo_chain` (`remaining /= 0.5`). -/
def atempoDoubleLoop : ℕ → ℚ → List ℚ × ℚ
  | 0, r => ([], r)
  | n + 1, r =>
      if r < 1/2 then
        let p := atempoDoubleLoop n (r / (1/2))
        ((1/2 : ℚ) :: p.1, p.2)
      else ([], r)

/-- `_build_atempo_chain`: chained `atempo` factors, each in `[0.5, 2.0]`;
the residual factor is emitted formatted to 4 decimals unless within 1% of
identity. -/
def buildAtempoChain (speed : ℚ) : List ℚ :=
  let p1 := atempoHalveLoop 64 speed
  let p2 := atempoDoubleLoop 64 p1.2
  let base := p1.1 ++ p2.1
  if 1/100 < |p2.2 - 1| then base ++ [roundTo4 p2.2] else base

/-- The narration-reconciliation plan computed by the voiceover branch of
`render` (`backend/render/ffmpeg.py` lines 293-349). -/
structure VoicePlan where
  extendedBy : ℚ
  target_duration : ℚ
  voiceAtempo : List ℚ
deriving DecidableEq, Repr

/-- Numeric core of the voiceover branch of `render`: `voice_duration` and
`video_duration` are the probed narration/picture durations.  The external
`ffmpeg` invocations are assumed to succeed; the freeze-frame extension
command clones the last frame for `extra` seconds (`tpad`), silence-pads the
audio (`apad`) and caps the output at `-t voice_duration`, so on success the
re-probed picture duration is `voice_duration` (the code takes
`max(probe, video_duration)`). -/
def reconcileVoice (voice_duration video_duration : ℚ) : VoicePlan :=
  let max_speedup : ℚ := 108/100
  let min_slowdown : ℚ := 92/100
  let required := if 0 < video_duration then voice_duration / video_duration else 1
  let extra := voice_duration - video_duration
  let doExtend : Bool := decide (max_speedup < required) && decide (3/100 < extra)
  let video2 := if doExtend then max voice_duration video_duration else video_duration
  let target := max video2 (1/100)
  let after := if 0 < target then voice_duration / target else 1
  let chain :=
    if max_speedup < after then buildAtempoChain max_speedup
    else if after < min_slowdown then buildAtempoChain min_slowdown
    else if 3/200 < |after - 1| then buildAtempoChain after
    else []
  { extendedBy := if doExtend then extra else 0,
    target_duration := target, voiceAtempo := chain }

/-- Inner `while frame_idx < count and frame_idx * interval < scene_end`
loop of `render_preview_frames`; returns the source times sampled in this
scene and the next `frame_idx` (frame extraction by `ffmpeg` is assumed to
succeed, so every sampled instant yields a frame). -/
def previewSceneLoop (sc : Scene) (interval accumulated scene_end : ℚ)
    (count frame_idx : ℕ) : List ℚ × ℕ :=
  if h : frame_idx < count ∧ (frame_idx : ℚ) * interval < scene_end then
    let target_time := (frame_idx : ℚ) * interval
    let source_time := sc.start + (target_time - accumulated) * sc.speed
    let p := previewSceneLoop sc interval accumulated scene_end count (frame_idx + 1)
    (source_time :: p.1, p.2)
  else ([], frame_idx)
termination_by count - frame_idx
decreasing_by omega

/-- Outer `for scene in project.scenes` loop of `render_preview_frames`. -/
def previewScenes (interval : ℚ) (count : ℕ) :
    List Scene → ℚ → ℕ → List ℚ
  | [], _, _ => []
  | sc :: rest, accumulated, frame_idx =>
      let scene_end := accumulated + sc.duration
      let p := previewSceneLoop sc interval accumulated scene_end count frame_idx
      p.1 ++ previewScenes interval count rest scene_end p.2

/-- `render_preview_frames`: the list of source timestamps sampled. -/
def renderPreviewFrames (p : Project) (count : ℕ) : List ℚ :=
  let total := (p.scenes.map Scene.duration).sum
  if total = 0 then []
  else
    let interval := total / (max count 1 : ℕ)
    previewScenes interval count p.scenes 0 0

/-! ## Concrete fixtures used by the theorems below -/

/-- The single-scene project of the spec's zero-width no-op example. -/
def zeroWidthProject : Project :=
  { scenes := [{ id := "s1", start := 0, «end» := 10 }] }

/-- The spec's concrete filler-word project: one scene `[0,10)` at speed 1
whose transcript is the single filler word `("um", 1.0, 1.3)`. -/
def umWord : TranscriptWord := { word := "um", start := 1, «end» := 13/10, is_filler := true }

def fillerProject : Project :=
  { scenes := [{ id := "s1", start := 0, «end» := 10, transcript := [umWord] }] }

/-- Three-scene project used for the reorder claims. -/
def reorderProject : Project :=
  { scenes := [{ id := "a", start := 0, «end» := 1 },
               { id := "b", start := 1, «end» := 2 },
               { id := "c", start := 2, «end» := 3 }] }

/-- The first scene of `reorderProject`. -/
def sceneA : Scene := { id := "a", start := 0, «end» := 1 }

/-- The word `("hi", 1, 3)` straddling the split point used below. -/
def straddleWord : TranscriptWord := { word := "hi", start := 1, «end» := 3 }

/-- One scene `[0,10)` whose only word straddles source time 2. -/
def straddleProject : Project :=
  { scenes := [{ id := "s", start := 0, «end» := 10, transcript := [straddleWord] }] }

def okWord : TranscriptWord := { word := "ok", start := 1, «end» := 2 }

def okScene : Scene := { id := "s", start := 0, «end» := 10, transcript := [okWord] }

/-- One-scene project for the log-length witness. -/
def logProject : Project := { scenes := [{ id := "s", start := 0, «end» := 3 }] }

/-- A delete edit whose target id matches no scene. -/
def noopEdit : Edit := { kind := EditKind.delete, target_scene_id := "missing" }

/-- Accumulated effective duration of the first `i` scenes. -/
def prefixDur (l : List Scene) (i : ℕ) : ℚ := ((l.take i).map Scene.duration).sum

/-- Two scenes in source order (4 s and 6 s effective at speed 1). -/
def orderedPreviewProject : Project :=
  { scenes := [{ id := "a", start := 0, «end» := 4 },
               { id := "b", start := 10, «end» := 16 }] }

/-- Two scenes out of source order, as left by a reorder edit. -/
def reorderedPreviewProject : Project :=
  { scenes := [{ id := "a", start := 10, «end» := 14 },
               { id := "b", start := 0, «end» := 6 }] }

theorem sceneType_roundtrip (t : SceneType) : SceneType.ofValue t.value = t := by
  cases t <;> rfl

theorem sceneDict_roundtrip (s : Scene) : sceneFromDict (sceneToDict s) = s := by
  cases s
  simp [sceneFromDict, sceneToDict, sceneType_roundtrip]

theorem scenesFromList_roundtrip (l : List Scene) :
    scenesFromList (l.map sceneToDict) = l := by
  induction l with
  | nil => rfl
  | cons s t ih => simpa [scenesFromList, sceneDict_roundtrip] using ih

/-! ## Structural lemmas about `apply_edit` -/

theorem snapshotPush_scenes (p : Project) : p.snapshotPush.scenes = p.scenes := rfl

theorem reorderSceneEdit_pres (p : Project) (e : Edit) :
    (reorderSceneEdit p e).edits = p.edits ∧
    (reorderSceneEdit p e).snapshots = p.snapshots := by
  unfold reorderSceneEdit
  cases List.find? (fun s => s.id == e.target_scene_id) p.scenes <;> exact ⟨rfl, rfl⟩

theorem applyEdit_edits (p : Project) (e : Edit) :
    (applyEdit p e).edits = p.edits ++ [e] := by
  obtain ⟨k, tid, pr, ts⟩ := e
  cases k
  case reorder => exact (reorderSceneEdit_pres _ _).1
  all_goals rfl

theorem applyEdit_snapshots (p : Project) (e : Edit) :
    (applyEdit p e).snapshots = p.snapshotPush.snapshots := by
  obtain ⟨k, tid, pr, ts⟩ := e
  cases k
  case reorder => exact (reorderSceneEdit_pres _ _).2
  all_goals rfl

theorem snapshotPush_getLast (p : Project) :
    p.snapshotPush.snapshots.getLast? = some (p.scenes.map sceneToDict) := by
  unfold Project.snapshotPush
  by_cases h : 50 < (p.snapshots ++ [p.scenes.map sceneToDict]).length
  · simp only [h, if_true]
    rw [List.getLast?_eq_getElem?, List.getElem?_drop, List.length_drop]
    have h2 : (p.snapshots ++ [p.scenes.map sceneToDict]).length - 50 +
        ((p.snapshots ++ [p.scenes.map sceneToDict]).length -
          ((p.snapshots ++ [p.scenes.map sceneToDict]).length - 50) - 1) =
        (p.snapshots ++ [p.scenes.map sceneToDict]).length - 1 := by omega
    rw [h2, ← List.getLast?_eq_getElem?, List.getLast?_concat]
  · simp only [h, if_false]
    exact List.getLast?_concat _

/-- Undo right after any `apply_edit` succeeds and restores the scene list
and the edit log it had before the edit (the snapshot stack loses its top
entry; every other field keeps its post-edit value). -/
theorem applyEdit_undo (p : Project) (e : Edit) :
    (applyEdit p e).undo = some { applyEdit p e with
      snapshots := (applyEdit p e).snapshots.dropLast,
      scenes := p.scenes, edits := p.edits } := by
  unfold Project.undo
  rw [applyEdit_snapshots, snapshotPush_getLast, applyEdit_edits]
  simp [scenesFromList_roundtrip]

/-- C1: for every project and every edit (hence after any prior edit
sequence), `undo` right after `apply_edit` succeeds, restores the scene list
to exactly its pre-edit state (the JSON snapshot round-trips every scene
field), and the edit appended by `apply_edit` — exactly one entry, the last
— is removed again from the edit log. -/
theorem undo_after_edit_restores (p : Project) (e : Edit) :
    ∃ q, (applyEdit p e).undo = some q ∧ q.scenes = p.scenes ∧
      (applyEdit p e).edits = p.edits ++ [e] ∧ q.edits = p.edits :=
  ⟨_, applyEdit_undo p e, rfl, applyEdit_edits p e, rfl⟩

theorem applyEdit_crop_fields (p : Project) (e : Edit)
    (hk : e.kind = EditKind.crop) :
    (applyEdit p e).crop_width = e.params.width.getD p.width ∧
    (applyEdit p e).crop_height = e.params.height.getD p.height := by
  obtain ⟨k, tid, pr, ts⟩ := e
  cases k <;> simp_all
  exact ⟨rfl, rfl⟩

/-- C9: the undo snapshot captures only the scene list, so after a crop edit
followed by `undo` the crop override dimensions keep the values the crop
edit set, even though the crop edit is gone from the edit log. -/
theorem crop_edit_survives_undo (p : Project) (e : Edit)
    (hk : e.kind = EditKind.crop) :
    ∃ q, (applyEdit p e).undo = some q ∧
      q.crop_width = e.params.width.getD p.width ∧
      q.crop_height = e.params.height.getD p.height ∧
      q.scenes = p.scenes ∧ q.edits = p.edits := by
  refine ⟨_, applyEdit_undo p e, ?_, ?_, rfl, rfl⟩
  · exact (applyEdit_crop_fields p e hk).1
  · exact (applyEdit_crop_fields p e hk).2

/-- Witness for C9 at a concrete crop edit. -/
theorem crop_edit_survives_undo_witness :
    ∃ q, (applyEdit
        { width := 640, height := 480, scenes := [{ id := "s", start := 0, «end» := 4 }] }
        { kind := EditKind.crop, params := { width := some 100, height := some 200 } }).undo
        = some q ∧
      q.crop_width = (some 100).getD 640 ∧
      q.crop_height = (some 200).getD 480 ∧
      q.scenes = [{ id := "s", start := 0, «end» := 4 }] ∧ q.edits = [] :=
  crop_edit_survives_undo
    { width := 640, height := 480, scenes := [{ id := "s", start := 0, «end» := 4 }] }
    { kind := EditKind.crop, params := { width := some 100, height := some 200 } } rfl

theorem snapshotPush_length (p : Project) :
    p.snapshotPush.snapshots.length = min (p.snapshots.length + 1) 50 := by
  simp only [Project.snapshotPush]
  by_cases h : 50 < (p.snapshots ++ [p.scenes.map sceneToDict]).length
  · rw [if_pos h, List.length_drop]
    simp only [List.length_append, List.length_singleton] at h ⊢
    omega
  · rw [if_neg h]
    simp only [List.length_append, List.length_singleton] at h ⊢
    omega

theorem applyEdit_log_lengths (p : Project) (e : Edit) :
    (applyEdit p e).edits.length = p.edits.length + 1 ∧
    (applyEdit p e).snapshots.length = min (p.snapshots.length + 1) 50 := by
  refine ⟨by rw [applyEdit_edits]; simp, ?_⟩
  rw [applyEdit_snapshots, snapshotPush_length]

/-- C10: every `apply_edit` call — a no-op target id included — pushes
exactly one snapshot and appends exactly one log entry; after a sequence of
applied edits the snapshot stack holds `min (initial + n) 50 ≤ 50` entries,
the edit log grows by exactly the number of calls, and an `undo` takes one
entry back off the log. -/
theorem applyEdits_log_invariant (p : Project) (es : List Edit)
    (h : p.snapshots.length ≤ 50) :
    (∀ e, (applyEdit p e).edits.length = p.edits.length + 1 ∧
          (applyEdit p e).snapshots.length = min (p.snapshots.length + 1) 50) ∧
    (applyEdits p es).edits.length = p.edits.length + es.length ∧
    (applyEdits p es).snapshots.length = min (p.snapshots.length + es.length) 50 ∧
    (applyEdits p es).snapshots.length ≤ 50 ∧
    (∀ q, (applyEdits p es).undo = some q →
      q.edits.length = p.edits.length + es.length - 1) := by
  refine ⟨fun e => applyEdit_log_lengths p e, ?_⟩
  have main : ∀ (es : List Edit) (p : Project), p.snapshots.length ≤ 50 →
      (applyEdits p es).edits.length = p.edits.length + es.length ∧
      (applyEdits p es).snapshots.length = min (p.snapshots.length + es.length) 50 := by
    intro es
    induction es with
    | nil => intro p hp; simp [applyEdits]; omega
    | cons e rest ih =>
        intro p hp
        have h1 := applyEdit_log_lengths p e
        have h2 := ih (applyEdit p e) (by omega)
        refine ⟨?_, ?_⟩
        · show (applyEdits (applyEdit p e) rest).edits.length = _
          rw [h2.1, h1.1]; simp [List.length_cons]; omega
        · show (applyEdits (applyEdit p e) rest).snapshots.length = _
          rw [h2.2, h1.2]; simp [List.length_cons]; omega
  obtain ⟨h1, h2⟩ := main es p h
  refine ⟨h1, h2, by omega, ?_⟩
  intro q hq
  unfold Project.undo at hq
  cases hfind : (applyEdits p es).snapshots.getLast? with
  | none => rw [hfind] at hq; exact absurd hq (by simp)
  | some snap =>
      rw [hfind] at hq
      have : q = { applyEdits p es with
        snapshots := (applyEdits p es).snapshots.dropLast,
        scenes := scenesFromList snap,
        edits := (applyEdits p es).edits.dropLast } := by
        exact (Option.some.inj hq).symm
      subst this
      simp [List.length_dropLast, h1]

/-- C2 (code bug): the spec requires `deleteRange(p, 2.0, 2.0)` to be a
no-op, but on a scene strictly containing `t = 2` the code splits at `t`,
then the second split (`split_at = 0`) is a no-op, and the `delete` of the
mid scene removes the whole tail `[2, 10)`: the scene list shrinks to
`[0, 2)`. -/
theorem deleteTextRange_zero_width_deletes_tail :
    (deleteTextRange zeroWidthProject 2 2).scenes
      = [{ id := "s1", start := 0, «end» := 2 }] ∧
    (deleteTextRange zeroWidthProject 2 2).scenes ≠ zeroWidthProject.scenes := by
  constructor <;> with_unfolding_all decide

/-- C5 counterexample: `delete_all_filler_words` on the spec's concrete
project yields two scenes, not one — the middle-deletion path splits the
scene around the buffered word range `[0.95, 1.35]` and deletes only the
middle piece. -/
theorem deleteAllFillerWords_two_scenes :
    (deleteAllFillerWords fillerProject).scenes.length = 2 := by
  with_unfolding_all decide

/-- C5 (amended): `delete_all_filler_words` on the spec's concrete project
yields the two scenes `[0, 0.95)` and `[1.35, 10)`, both with empty
transcripts, whose total effective duration is exactly
`9.6 = 10 - 0.3 - 2 * 0.05` seconds. -/
theorem deleteAllFillerWords_concrete :
    ((deleteAllFillerWords fillerProject).scenes.map
        (fun s => (s.start, s.«end», s.transcript)))
      = [(0, 19/20, []), (27/20, 10, [])] ∧
    ((deleteAllFillerWords fillerProject).scenes.map Scene.duration).sum = 48/5 := by
  constructor <;> with_unfolding_all decide

/-- C8 counterexample: reordering scene `"a"` to `new_index = -1` lands it
at position 1 (Python `insert` counts a negative index from the end), not at
`clamp(-1, 0, 2) = 0`. -/
theorem reorder_negative_not_clamped :
    ((applyEdit reorderProject
        { kind := EditKind.reorder, target_scene_id := "a",
          params := { new_index := some (-1) } }).scenes.map Scene.id)
      = ["b", "a", "c"] ∧
    ["b", "a", "c"] ≠ ["a", "b", "c"] := by
  constructor
  · with_unfolding_all decide
  · decide

/-- C8 (amended): a reorder edit whose target is present removes the first
scene with that id and reinserts it at `min new_index (len-1)` when
`new_index ≥ 0` — which equals `clamp(new_index, 0, len-1)` — while a
negative `new_index` is resolved by Python `insert` semantics relative to
the end of the shortened list: position `max 0 ((len-1) + new_index)`. -/
theorem reorder_inserts_at (p : Project) (e : Edit) (s : Scene)
    (hk : e.kind = EditKind.reorder)
    (hfind : p.scenes.find? (fun t => t.id == e.target_scene_id) = some s) :
    (applyEdit p e).scenes =
      (p.scenes.eraseP (fun t => t.id == e.target_scene_id)).insertIdx
        (let rest := p.scenes.eraseP (fun t => t.id == e.target_scene_id)
         let ni := e.params.new_index.getD 0
         if 0 ≤ ni then min ni.toNat rest.length
         else ((rest.length : ℤ) + ni).toNat) s := by
  obtain ⟨k, tid, pr, ts⟩ := e
  subst hk
  dsimp only at hfind ⊢
  simp only [applyEdit, reorderSceneEdit, snapshotPush_scenes]
  rw [hfind]
  dsimp only
  simp only [pyInsertIdx]
  congr 1
  set rest := p.scenes.eraseP (fun t => t.id == tid) with hrest
  set ni : ℤ := pr.new_index.getD 0 with hni
  by_cases h0 : 0 ≤ ni
  · rw [if_pos h0]
    have hmin : min ni (rest.length : ℤ) = if ni ≤ (rest.length : ℤ) then ni else rest.length := by
      simp [min_def]
    by_cases h1 : min ni (rest.length : ℤ) < 0
    · omega
    · rw [if_neg h1]; omega
  · rw [if_neg h0]
    have : min ni (rest.length : ℤ) = ni := by omega
    rw [this, if_pos (by omega)]

/-- Witness for C8 at `new_index = 5` (clamped to the end). -/
theorem reorder_inserts_at_witness :
    (applyEdit reorderProject
        { kind := EditKind.reorder, target_scene_id := "a",
          params := { new_index := some 5 } }).scenes =
      (reorderProject.scenes.eraseP (fun t => t.id == "a")).insertIdx
        (let rest := reorderProject.scenes.eraseP (fun t => t.id == "a")
         let ni : ℤ := (some (5 : ℤ)).getD 0
         if 0 ≤ ni then min ni.toNat rest.length
         else ((rest.length : ℤ) + ni).toNat) sceneA :=
  reorder_inserts_at reorderProject
    { kind := EditKind.reorder, target_scene_id := "a", params := { new_index := some 5 } }
    sceneA rfl (by with_unfolding_all decide)

theorem applyEdit_split_scenes (p : Project) (tid : String) (o : ℚ) :
    (applyEdit p
        { kind := EditKind.split, target_scene_id := tid,
          params := { split_at := some o } }).scenes
      = splitInList tid o p.scenes := rfl

theorem applyEdit_merge_scenes (p : Project) (tid : String) :
    (applyEdit p { kind := EditKind.merge, target_scene_id := tid }).scenes
      = mergeInList tid p.scenes := rfl

/-- C3 counterexample: splitting `[0,10)` at offset 2 drops the word
`("hi", 1, 3)` straddling the split point from both halves (the left half
keeps words with `end <= 2`, the right half words with `start >= 2`), so the
following merge restores the interval `[0,10)` but not the Word set: the
transcript comes back empty. -/
theorem split_merge_drops_straddling_word :
    ((applyEdit (applyEdit straddleProject
        { kind := EditKind.split, target_scene_id := "s",
          params := { split_at := some 2 } })
        { kind := EditKind.merge, target_scene_id := "s" }).scenes.map
          (fun s => (s.start, s.«end», s.transcript)))
      = [(0, 10, [])] := by
  with_unfolding_all decide

/-- C3 (amended): splitting a scene at an interior offset and merging the
left half back restores the original `[start, end)` and the Word multiset,
provided no word straddles the split point (each positive-length word lies
entirely on one side).  A straddling word is dropped by the split and cannot
be restored. -/
theorem split_then_merge_roundtrip (s : Scene) (o : ℚ)
    (h1 : 0 < o) (h2 : s.start + o < s.«end»)
    (hw : ∀ w ∈ s.transcript, w.start < w.«end» ∧
            (w.«end» ≤ s.start + o ∨ s.start + o ≤ w.start)) :
    ∃ t, (applyEdit (applyEdit { scenes := [s] }
        { kind := EditKind.split, target_scene_id := s.id,
          params := { split_at := some o } })
        { kind := EditKind.merge, target_scene_id := s.id }).scenes = [t] ∧
      t.start = s.start ∧ t.«end» = s.«end» ∧ List.Perm t.transcript s.transcript := by
  have hne : ¬ (s.start + o ≤ s.start ∨ s.«end» ≤ s.start + o) := by
    push_neg
    exact ⟨by linarith, by linarith⟩
  rw [applyEdit_merge_scenes, applyEdit_split_scenes]
  unfold splitInList
  rw [if_pos rfl, if_neg hne]
  unfold mergeInList
  rw [if_pos rfl]
  refine ⟨_, rfl, rfl, rfl, ?_⟩
  show List.Perm (s.transcript.filter (fun w => w.«end» ≤ s.start + o) ++
        s.transcript.filter (fun w => s.start + o ≤ w.start)) s.transcript
  have hq : s.transcript.filter (fun w => s.start + o ≤ w.start) =
      s.transcript.filter (fun w => !(decide (w.«end» ≤ s.start + o))) := by
    refine List.filter_congr ?_
    intro w hmem
    obtain ⟨hlt, hcase⟩ := hw w hmem
    rcases hcase with hc | hc
    · have h3 : ¬ (s.start + o ≤ w.start) := by linarith
      simp [hc, h3]
    · have h3 : ¬ (w.«end» ≤ s.start + o) := by linarith
      simp [hc, h3]
  rw [hq]
  exact List.filter_append_perm _ _

/-- Witness for C3 at a concrete scene with a non-straddling word. -/
theorem split_then_merge_roundtrip_witness :
    ∃ t, (applyEdit (applyEdit { scenes := [okScene] }
        { kind := EditKind.split, target_scene_id := okScene.id,
          params := { split_at := some 5 } })
        { kind := EditKind.merge, target_scene_id := okScene.id }).scenes = [t] ∧
      t.start = okScene.start ∧ t.«end» = okScene.«end» ∧
      List.Perm t.transcript okScene.transcript :=
  split_then_merge_roundtrip okScene 5
    (by with_unfolding_all decide) (by with_unfolding_all decide)
    (by with_unfolding_all decide)

/-- Witness for C10: one no-op-target edit applied to a fresh project. -/
theorem applyEdits_log_invariant_witness :
    (∀ e, (applyEdit logProject e).edits.length = logProject.edits.length + 1 ∧
          (applyEdit logProject e).snapshots.length
            = min (logProject.snapshots.length + 1) 50) ∧
    (applyEdits logProject [noopEdit]).edits.length
      = logProject.edits.length + [noopEdit].length ∧
    (applyEdits logProject [noopEdit]).snapshots.length
      = min (logProject.snapshots.length + [noopEdit].length) 50 ∧
    (applyEdits logProject [noopEdit]).snapshots.length ≤ 50 ∧
    (∀ q, (applyEdits logProject [noopEdit]).undo = some q →
      q.edits.length = logProject.edits.length + [noopEdit].length - 1) :=
  applyEdits_log_invariant logProject [noopEdit] (by decide)

/-! ## Atempo chain (C6) -/

theorem atempoHalveLoop_of_le {r : ℚ} (h : r ≤ 2) :
    ∀ n, atempoHalveLoop n r = ([], r)
  | 0 => rfl
  | n + 1 => by
      unfold atempoHalveLoop
      rw [if_neg (not_lt.mpr h)]

theorem atempoHalveLoop_step {r : ℚ} (h : 2 < r) (n : ℕ) :
    atempoHalveLoop (n + 1) r =
      ((2 : ℚ) :: (atempoHalveLoop n (r / 2)).1, (atempoHalveLoop n (r / 2)).2) := by
  conv_lhs => unfold atempoHalveLoop
  rw [if_pos h]

theorem atempoHalveLoop_eval_high {r : ℚ} (h1 : 2 < r) (h2 : r ≤ 4) (n : ℕ) (hn : 1 ≤ n) :
    atempoHalveLoop n r = ([2], r / 2) := by
  obtain ⟨m, rfl⟩ : ∃ m, n = m + 1 := ⟨n - 1, by omega⟩
  rw [atempoHalveLoop_step h1, atempoHalveLoop_of_le (by linarith)]

theorem atempoDoubleLoop_of_ge {r : ℚ} (h : 1/2 ≤ r) :
    ∀ n, atempoDoubleLoop n r = ([], r)
  | 0 => rfl
  | n + 1 => by
      unfold atempoDoubleLoop
      rw [if_neg (not_lt.mpr h)]

theorem atempoDoubleLoop_step {r : ℚ} (h : r < 1/2) (n : ℕ) :
    atempoDoubleLoop (n + 1) r =
      ((1/2 : ℚ) :: (atempoDoubleLoop n (r / (1/2))).1, (atempoDoubleLoop n (r / (1/2))).2) := by
  conv_lhs => unfold atempoDoubleLoop
  rw [if_pos h]

theorem atempoDoubleLoop_eval_low {r : ℚ} (h1 : r < 1/2) (h2 : 1/4 ≤ r) (n : ℕ) (hn : 1 ≤ n) :
    atempoDoubleLoop n r = ([1/2], r / (1/2)) := by
  obtain ⟨m, rfl⟩ : ∃ m, n = m + 1 := ⟨n - 1, by omega⟩
  have hge : (1:ℚ)/2 ≤ r / (1/2) := by
    rw [div_div_eq_mul_div, div_one]
    linarith
  rw [atempoDoubleLoop_step h1, atempoDoubleLoop_of_ge hge]

theorem roundTo4_close (q : ℚ) : |roundTo4 q - q| ≤ 1/20000 := by
  unfold roundTo4
  have h := abs_sub_round (q * 10000)
  rw [abs_sub_comm] at h
  have h2 : (round (q * 10000) : ℚ) / 10000 - q
      = ((round (q * 10000) : ℚ) - q * 10000) / 10000 := by ring
  rw [h2, abs_div, abs_of_pos (by norm_num : (0:ℚ) < 10000)]
  rw [div_le_iff (by norm_num : (0:ℚ) < 10000)]
  calc |(round (q * 10000) : ℚ) - q * 10000| ≤ 1/2 := h
    _ = 1/20000 * 10000 := by norm_num

theorem round_mono_rat {a b : ℚ} (hab : a ≤ b) : round a ≤ round b := by
  rw [round_eq, round_eq]
  exact Int.floor_le_floor (by linarith)

theorem roundTo4_mem {q : ℚ} (h1 : 1/2 ≤ q) (h2 : q ≤ 2) :
    1/2 ≤ roundTo4 q ∧ roundTo4 q ≤ 2 := by
  unfold roundTo4
  have e1 : round ((1:ℚ)/2 * 10000) = 5000 := by
    rw [round_eq, Int.floor_eq_iff]
    constructor <;> norm_num
  have e2 : round ((2:ℚ) * 10000) = 20000 := by
    rw [round_eq, Int.floor_eq_iff]
    constructor <;> norm_num
  have hlo : (5000 : ℤ) ≤ round (q * 10000) := by
    rw [← e1]
    exact round_mono_rat (by linarith)
  have hhi : round (q * 10000) ≤ 20000 := by
    rw [← e2]
    exact round_mono_rat (by linarith)
  constructor
  · rw [le_div_iff (by norm_num : (0:ℚ) < 10000)]
    have : (5000 : ℚ) ≤ (round (q * 10000) : ℚ) := by exact_mod_cast hlo
    linarith
  · rw [div_le_iff (by norm_num : (0:ℚ) < 10000)]
    have : ((round (q * 10000) : ℚ)) ≤ 20000 := by exact_mod_cast hhi
    linarith

/-- C6: for every requested speed in `[0.25, 4]` the atempo chain emits only
factors in `[0.5, 2.0]`, their product equals the requested speed up to the
4-decimal formatting of the residual factor and the 1% identity tolerance
(bounded here by a relative error of `51/5000 = 1.02%`), and speed 3.0
decomposes into exactly the two steps 2.0 then 1.5. -/
theorem buildAtempoChain_spec (speed : ℚ) (hlo : 1/4 ≤ speed) (hhi : speed ≤ 4) :
    (∀ f ∈ buildAtempoChain speed, 1/2 ≤ f ∧ f ≤ 2) ∧
    |(buildAtempoChain speed).prod - speed| ≤ speed * (51/5000) ∧
    buildAtempoChain 3 = [2, 3/2] := by
  have key : ∃ P r, ((P = ([] : List ℚ) ∧ P.prod = 1) ∨ (P = [2] ∧ P.prod = 2) ∨
        (P = [1/2] ∧ P.prod = 1/2)) ∧
      P.prod * r = speed ∧ 1/2 ≤ r ∧ r ≤ 2 ∧
      buildAtempoChain speed = (if 1/100 < |r - 1| then P ++ [roundTo4 r] else P) := by
    rcases lt_or_le 2 speed with hbig | hle2
    · refine ⟨[2], speed/2, Or.inr (Or.inl ⟨rfl, by simp⟩), by simp; ring, by linarith,
        by linarith, ?_⟩
      simp only [buildAtempoChain]
      rw [atempoHalveLoop_eval_high hbig hhi 64 (by norm_num)]
      rw [atempoDoubleLoop_of_ge (by linarith : (1:ℚ)/2 ≤ speed/2) 64]
      simp
    rcases lt_or_le speed (1/2) with hsmall | hge2
    · refine ⟨[1/2], speed/(1/2), Or.inr (Or.inr ⟨rfl, by simp⟩), by simp; ring, ?_, ?_, ?_⟩
      · rw [div_div_eq_mul_div, div_one]; linarith
      · rw [div_div_eq_mul_div, div_one]; linarith
      · simp only [buildAtempoChain]
        rw [atempoHalveLoop_of_le (by linarith) 64]
        rw [atempoDoubleLoop_eval_low hsmall hlo 64 (by norm_num)]
        simp
    · refine ⟨[], speed, Or.inl ⟨rfl, by simp⟩, by simp, hge2, hle2, ?_⟩
      simp only [buildAtempoChain]
      rw [atempoHalveLoop_of_le hle2 64]
      rw [atempoDoubleLoop_of_ge hge2 64]
      simp
  obtain ⟨P, r, hP, hPr, hr1, hr2, hchain⟩ := key
  have hsp : 0 < speed := by linarith
  have hPpos : 0 < P.prod := by
    rcases hP with ⟨_, h⟩ | ⟨_, h⟩ | ⟨_, h⟩ <;> rw [h] <;> norm_num
  have hP2 : P.prod ≤ 2 := by
    rcases hP with ⟨_, h⟩ | ⟨_, h⟩ | ⟨_, h⟩ <;> rw [h] <;> norm_num
  refine ⟨?_, ?_, by with_unfolding_all decide⟩
  · intro f hf
    rw [hchain] at hf
    by_cases hid : 1/100 < |r - 1|
    · rw [if_pos hid] at hf
      rcases List.mem_append.mp hf with hf | hf
      · rcases hP with ⟨hh, _⟩ | ⟨hh, _⟩ | ⟨hh, _⟩ <;> subst hh <;> simp at hf <;>
          subst hf <;> norm_num
      · simp at hf
        subst hf
        exact roundTo4_mem hr1 hr2
    · rw [if_neg hid] at hf
      rcases hP with ⟨hh, _⟩ | ⟨hh, _⟩ | ⟨hh, _⟩ <;> subst hh <;> simp at hf <;>
        subst hf <;> norm_num
  · rw [hchain]
    by_cases hid : 1/100 < |r - 1|
    · rw [if_pos hid, List.prod_append, List.prod_singleton]
      have hd := roundTo4_close r
      have e : P.prod * roundTo4 r - speed = P.prod * (roundTo4 r - r) := by
        rw [← hPr]; ring
      rw [e, abs_mul, abs_of_pos hPpos]
      have hb : P.prod * |roundTo4 r - r| ≤ 2 * (1/20000) :=
        mul_le_mul hP2 hd (abs_nonneg _) (by norm_num)
      have hrhs : (1/4 : ℚ) * (51/5000) ≤ speed * (51/5000) := by
        apply mul_le_mul_of_nonneg_right hlo (by norm_num)
      calc P.prod * |roundTo4 r - r| ≤ 2 * (1/20000) := hb
        _ ≤ (1/4 : ℚ) * (51/5000) := by norm_num
        _ ≤ speed * (51/5000) := hrhs
    · rw [if_neg hid]
      push_neg at hid
      have hid' := abs_le.mp hid
      have e : P.prod - speed = P.prod * (1 - r) := by rw [← hPr]; ring
      rw [e, abs_mul, abs_of_pos hPpos]
      have h99 : 99/100 ≤ r := by linarith [hid'.1]
      have habs : |1 - r| ≤ 1/100 := by
        rw [abs_sub_comm]
        exact hid
      rw [← hPr]
      have step1 : P.prod * |1 - r| ≤ P.prod * (1/100) :=
        mul_le_mul_of_nonneg_left habs (le_of_lt hPpos)
      have step2 : P.prod * (1/100) ≤ P.prod * r * (51/5000) := by
        nlinarith [hPpos, h99]
      linarith

/-- Witness for C6 at speed 3. -/
theorem buildAtempoChain_spec_witness :
    (∀ f ∈ buildAtempoChain 3, 1/2 ≤ f ∧ f ≤ 2) ∧
    |(buildAtempoChain 3).prod - 3| ≤ 3 * (51/5000) ∧
    buildAtempoChain 3 = [2, 3/2] :=
  buildAtempoChain_spec 3 (by norm_num) (by norm_num)

/-! ## Narration reconciliation (C4) -/

/-- C4 counterexample: narration 0.12 s over picture 0.1 s has ratio
1.2 > 1.08, yet the picture is not extended — the code's `extra > 0.03`
guard fails — and the narration is time-stretched by the capped 1.08 chain
instead of being left natural behind a frozen frame. -/
theorem reconcileVoice_no_extension_small :
    (108/100 : ℚ) < (12/100) / (1/10) ∧
    (reconcileVoice (12/100) (1/10)).extendedBy = 0 ∧
    (reconcileVoice (12/100) (1/10)).extendedBy ≠ (12/100) - (1/10) ∧
    (reconcileVoice (12/100) (1/10)).voiceAtempo = [27/25] := by
  refine ⟨?_, ?_, ?_, ?_⟩ <;> with_unfolding_all decide

/-- C4 (amended): when a narration of duration `N` is attached, the ratio
`N/V` exceeds 1.08 *and the extension guard `N - V > 0.03` holds*, the
render stage extends the picture by freezing its last frame for `N - V`
seconds (silence-padding the original audio over the same span), giving a
new picture duration of exactly `N`; the recomputed ratio is 1 and the
narration is left unstretched (no atempo factor emitted). -/
theorem reconcileVoice_extends (N V : ℚ) (hV : 0 < V)
    (hr : 108/100 < N / V) (hg : 3/100 < N - V) :
    (reconcileVoice N V).extendedBy = N - V ∧
    (reconcileVoice N V).target_duration = N ∧
    (reconcileVoice N V).voiceAtempo = [] := by
  have hVN : V < N := by
    have h1 : 108/100 * V < N := (lt_div_iff hV).mp hr
    nlinarith
  have hmax : max N V = N := max_eq_left (le_of_lt hVN)
  have hN0 : (1:ℚ)/100 ≤ N := by linarith
  have hmax2 : max N (1/100) = N := max_eq_left hN0
  have hNpos : (0:ℚ) < N := by linarith
  have hself : N / N = 1 := div_self (ne_of_gt hNpos)
  have hsup : N ⊔ ((100:ℚ))⁻¹ = N := sup_eq_left.mpr (by rw [← one_div]; exact hN0)
  refine ⟨?_, ?_, ?_⟩
  · simp [reconcileVoice, hV, hr, hg]
  · simp [reconcileVoice, hV, hr, hg, hmax]
    linarith
  · simp [reconcileVoice, hV, hr, hg, hmax]
    rw [hsup, hself]
    norm_num

/-- Witness for C4 at the spec's concrete pair `N = 12, V = 10`. -/
theorem reconcileVoice_extends_witness :
    (reconcileVoice 12 10).extendedBy = 12 - 10 ∧
    (reconcileVoice 12 10).target_duration = 12 ∧
    (reconcileVoice 12 10).voiceAtempo = [] :=
  reconcileVoice_extends 12 10 (by norm_num) (by norm_num) (by norm_num)

/-! ## Preview sampler (C7) -/

theorem prefixDur_zero (l : List Scene) : prefixDur l 0 = 0 := by simp [prefixDur]

theorem prefixDur_succ_cons (s : Scene) (l : List Scene) (i : ℕ) :
    prefixDur (s :: l) (i + 1) = s.duration + prefixDur l i := by
  simp [prefixDur]

/-- Full behaviour of the inner sampling loop: starting at `frame_idx = f`
with `f ≤ count` it returns the samples for the indices `f, …, j-1`
(`j` the returned index), each of which is both below `count` and with
timeline instant strictly before `scene_end`, and it stops either at `count`
or at the first instant reaching `scene_end`. -/
theorem previewSceneLoop_spec (sc : Scene) (interval acc send : ℚ) (count : ℕ) :
    ∀ n f, count - f ≤ n → f ≤ count →
      (previewSceneLoop sc interval acc send count f).1
          = (List.range' f ((previewSceneLoop sc interval acc send count f).2 - f)).map
              (fun (k : ℕ) => sc.start + ((k : ℚ) * interval - acc) * sc.speed) ∧
      f ≤ (previewSceneLoop sc interval acc send count f).2 ∧
      (previewSceneLoop sc interval acc send count f).2 ≤ count ∧
      (∀ k, f ≤ k → k < (previewSceneLoop sc interval acc send count f).2 →
        (k : ℚ) * interval < send) ∧
      ((previewSceneLoop sc interval acc send count f).2 < count →
        send ≤ ((previewSceneLoop sc interval acc send count f).2 : ℚ) * interval) := by
  intro n
  induction n with
  | zero =>
      intro f hn hf
      have hfc : ¬ (f < count ∧ (f : ℚ) * interval < send) := fun h => absurd h.1 (by omega)
      have heq : previewSceneLoop sc interval acc send count f = ([], f) := by
        conv_lhs => unfold previewSceneLoop
        rw [dif_neg hfc]
      rw [heq]
      refine ⟨by simp, le_refl f, hf, ?_, ?_⟩
      · intro k h1 h2
        exact absurd (lt_of_le_of_lt h1 h2) (lt_irrefl f)
      · intro h
        exact absurd h (by omega)
  | succ n ih =>
      intro f hn hf
      by_cases hcond : f < count ∧ (f : ℚ) * interval < send
      · have heq : previewSceneLoop sc interval acc send count f
            = ((sc.start + ((f : ℚ) * interval - acc) * sc.speed) ::
                (previewSceneLoop sc interval acc send count (f + 1)).1,
               (previewSceneLoop sc interval acc send count (f + 1)).2) := by
          conv_lhs => unfold previewSceneLoop
          rw [dif_pos hcond]
        rw [heq]
        obtain ⟨ih1, ih2, ih3, ih4, ih5⟩ := ih (f + 1) (by omega) (by omega)
        refine ⟨?_, by omega, ih3, ?_, ih5⟩
        · rw [ih1]
          rw [show (previewSceneLoop sc interval acc send count (f + 1)).2 - f
              = ((previewSceneLoop sc interval acc send count (f + 1)).2 - (f + 1)) + 1
              from by omega]
          rw [List.range'_succ]
          simp
        · intro k hk1 hk2
          rcases Nat.eq_or_lt_of_le hk1 with rfl | hk1'
          · exact hcond.2
          · exact ih4 k hk1' hk2
      · have heq : previewSceneLoop sc interval acc send count f = ([], f) := by
          conv_lhs => unfold previewSceneLoop
          rw [dif_neg hcond]
        rw [heq]
        push_neg at hcond
        refine ⟨by simp, le_refl f, hf, ?_, ?_⟩
        · intro k h1 h2
          exact absurd (lt_of_le_of_lt h1 h2) (lt_irrefl f)
        · intro h
          exact hcond h

theorem chain_start_ge (sc : Scene) (rest : List Scene)
    (hpos : ∀ s ∈ rest, s.start < s.«end»)
    (hch : (sc :: rest).Chain' (fun s t => s.«end» ≤ t.start)) :
    ∀ t ∈ rest, sc.«end» ≤ t.start := by
  induction rest generalizing sc with
  | nil => simp
  | cons r rs ih =>
      intro t ht
      rcases List.mem_cons.mp ht with rfl | ht
      · exact (List.chain'_cons.mp hch).1
      · have h1 : sc.«end» ≤ r.start := (List.chain'_cons.mp hch).1
        have h2 : r.start < r.«end» := hpos r (by simp)
        have h3 := ih r (fun s hs => hpos s (by simp [hs])) (List.chain'_cons.mp hch).2 t ht
        linarith

/-- Full behaviour of the scene walk of `render_preview_frames`: with
positive ordered scenes, a positive interval, and the loop invariant
(`acc ≤ f * interval` while samples remain), the walk emits exactly the
samples `f, …, F-1` where `F` is `count` unless the remaining effective
duration runs out first; the emitted source times are strictly increasing,
each lies inside its scene's source interval, and the `k`-th sample is
mapped through the scene containing timeline instant `k * interval`. -/
theorem previewScenes_spec (interval : ℚ) (count : ℕ) (hint : 0 < interval) :
    ∀ (scs : List Scene) (acc : ℚ) (f : ℕ),
      (∀ s ∈ scs, s.start < s.«end» ∧ 0 < s.speed) →
      scs.Chain' (fun s t => s.«end» ≤ t.start) →
      f ≤ count →
      (f < count → acc ≤ f * interval) →
      ∃ F, f ≤ F ∧ F ≤ count ∧
        (previewScenes interval count scs acc f).length = F - f ∧
        (∀ k, f ≤ k → k < F → (k : ℚ) * interval < acc + (scs.map Scene.duration).sum) ∧
        (F < count → acc + (scs.map Scene.duration).sum ≤ (F : ℚ) * interval) ∧
        List.Chain' (· < ·) (previewScenes interval count scs acc f) ∧
        (∀ x ∈ previewScenes interval count scs acc f, ∃ s ∈ scs, s.start ≤ x ∧ x < s.«end») ∧
        (∀ k, f ≤ k → k < F →
          ∃ i s, scs[i]? = some s ∧
            acc + prefixDur scs i ≤ (k : ℚ) * interval ∧
            (k : ℚ) * interval < acc + prefixDur scs (i + 1) ∧
            (previewScenes interval count scs acc f)[k - f]? =
              some (s.start + ((k : ℚ) * interval - (acc + prefixDur scs i)) * s.speed)) := by
  intro scs
  induction scs with
  | nil =>
      intro acc f hpos hord hf hinv
      refine ⟨f, le_refl f, hf, by simp [previewScenes], ?_, ?_, by simp [previewScenes],
        by simp [previewScenes], ?_⟩
      · intro k h1 h2
        exact absurd (lt_of_le_of_lt h1 h2) (lt_irrefl f)
      · intro hFc
        simpa using hinv hFc
      · intro k h1 h2
        exact absurd (lt_of_le_of_lt h1 h2) (lt_irrefl f)
  | cons sc rest ih =>
      intro acc f hpos hord hf hinv
      obtain ⟨hse, hsp⟩ := hpos sc (by simp)
      have hdur : (0:ℚ) < sc.duration := div_pos (by linarith) hsp
      obtain ⟨il1, il2, il3, il4, il5⟩ :=
        previewSceneLoop_spec sc interval acc (acc + sc.duration) count
          (count - f) f (le_refl _) hf
      have hposr : ∀ s ∈ rest, s.start < s.«end» ∧ 0 < s.speed :=
        fun s hs => hpos s (by simp [hs])
      have hordr : rest.Chain' (fun s t => s.«end» ≤ t.start) := hord.tail
      have hge := chain_start_ge sc rest (fun s hs => (hposr s hs).1) hord
      obtain ⟨F, hF1, hF2, hlen, hin, hout, hchain, hmem, hmap⟩ :=
        ih (acc + sc.duration) (previewSceneLoop sc interval acc (acc + sc.duration) count f).2
          hposr hordr il3 il5
      set j := (previewSceneLoop sc interval acc (acc + sc.duration) count f).2 with hj
      have hsplit : previewScenes interval count (sc :: rest) acc f
          = (previewSceneLoop sc interval acc (acc + sc.duration) count f).1
            ++ previewScenes interval count rest (acc + sc.duration) j := rfl
      -- every sample from this scene lies in [sc.start, sc.end)
      have hmem1 : ∀ x ∈ (previewSceneLoop sc interval acc (acc + sc.duration) count f).1,
          sc.start ≤ x ∧ x < sc.«end» := by
        intro x hx
        rw [il1] at hx
        obtain ⟨k, hk, rfl⟩ := List.mem_map.mp hx
        have hkr := List.mem_range'_1.mp hk
        have hkf : f ≤ k := hkr.1
        have hkj : k < j := by omega
        have hkc : k < count := lt_of_lt_of_le hkj il3
        have hfa : acc ≤ f * interval := hinv (by omega)
        have hka : acc ≤ (k : ℚ) * interval := by
          have : (f : ℚ) * interval ≤ (k : ℚ) * interval :=
            mul_le_mul_of_nonneg_right (by exact_mod_cast hkf) (le_of_lt hint)
          linarith
        have hks : (k : ℚ) * interval < acc + sc.duration := il4 k hkf hkj
        constructor
        · nlinarith
        · have hlt : ((k : ℚ) * interval - acc) * sc.speed < sc.duration * sc.speed := by
            apply mul_lt_mul_of_pos_right _ hsp
            linarith
          have hds : sc.duration * sc.speed = sc.«end» - sc.start := by
            unfold Scene.duration
            field_simp
          linarith
      have hlen1 : (previewSceneLoop sc interval acc (acc + sc.duration) count f).1.length
          = j - f := by
        rw [il1]
        simp
      -- strictly increasing within this scene
      have hchain1 : List.Chain' (· < ·)
          (previewSceneLoop sc interval acc (acc + sc.duration) count f).1 := by
        rw [il1]
        refine List.Pairwise.chain' ?_
        rw [List.pairwise_map]
        refine (List.pairwise_lt_range' f (j - f) 1 (by norm_num)).imp ?_
        intro a b hab
        have : (a : ℚ) * interval < (b : ℚ) * interval :=
          mul_lt_mul_of_pos_right (by exact_mod_cast hab) hint
        nlinarith
      -- elements of the tail sit at or above sc.end
      have hmem2 : ∀ y ∈ previewScenes interval count rest (acc + sc.duration) j,
          sc.«end» ≤ y := by
        intro y hy
        obtain ⟨t, ht, hty, _⟩ := hmem y hy
        exact le_trans (hge t ht) hty
      refine ⟨F, by omega, hF2, ?_, ?_, ?_, ?_, ?_, ?_⟩
      · rw [hsplit, List.length_append, hlen1, hlen]
        omega
      · intro k hk1 hk2
        have hsum : ((sc :: rest).map Scene.duration).sum
            = sc.duration + (rest.map Scene.duration).sum := by simp
        rw [hsum]
        by_cases hkj : k < j
        · have := il4 k hk1 hkj
          have hnn : (0:ℚ) ≤ (rest.map Scene.duration).sum :=
            List.sum_nonneg (by
              intro q hq
              obtain ⟨s, hs, rfl⟩ := List.mem_map.mp hq
              have := hposr s hs
              exact le_of_lt (div_pos (by linarith [this.1]) this.2))
          linarith
        · have := hin k (by omega) hk2
          linarith [this]
      · intro hFc
        have := hout hFc
        have hsum : ((sc :: rest).map Scene.duration).sum
            = sc.duration + (rest.map Scene.duration).sum := by simp
        rw [hsum]
        linarith
      · rw [hsplit]
        refine List.Chain'.append hchain1 hchain ?_
        intro x hx y hy
        have hx2 := hmem1 x (List.mem_of_mem_getLast? hx)
        have hy2 := hmem2 y (List.mem_of_mem_head? hy)
        linarith [hx2.2]
      · rw [hsplit]
        intro x hx
        rcases List.mem_append.mp hx with hx | hx
        · exact ⟨sc, by simp, (hmem1 x hx).1, (hmem1 x hx).2⟩
        · obtain ⟨t, ht, h1, h2⟩ := hmem x hx
          exact ⟨t, by simp [ht], h1, h2⟩
      · intro k hk1 hk2
        by_cases hkj : k < j
        · -- sample inside this scene
          refine ⟨0, sc, by simp, ?_, ?_, ?_⟩
          · rw [prefixDur_zero]
            have hfa : acc ≤ f * interval := hinv (by
              have : k < count := lt_of_lt_of_le hkj il3
              omega)
            have : (f : ℚ) * interval ≤ (k : ℚ) * interval :=
              mul_le_mul_of_nonneg_right (by exact_mod_cast hk1) (le_of_lt hint)
            linarith
          · rw [prefixDur_succ_cons, prefixDur_zero]
            have := il4 k hk1 hkj
            linarith
          · rw [hsplit, prefixDur_zero]
            rw [List.getElem?_append_left (by rw [hlen1]; omega)]
            rw [il1, List.getElem?_map,
              List.getElem?_range' f 1 (by omega : k - f < j - f)]
            rw [show f + 1 * (k - f) = k from by omega]
            simp
        · -- sample inside a later scene
          obtain ⟨i, s, hs, hlow, hhigh, hget⟩ := hmap k (by omega) hk2
          refine ⟨i + 1, s, by simpa using hs, ?_, ?_, ?_⟩
          · rw [prefixDur_succ_cons]
            linarith
          · rw [prefixDur_succ_cons]
            linarith
          · rw [hsplit]
            rw [List.getElem?_append_right (by rw [hlen1]; omega)]
            rw [hlen1]
            rw [show k - f - (j - f) = k - j from by omega]
            rw [hget, prefixDur_succ_cons]
            congr 2
            ring

/-- C7 counterexample: on the reordered timeline `[10,14), [0,6)` with
`count = 2` the sampler emits `[10, 1]` — exactly `count` timestamps, but
not monotonically increasing, because consecutive scenes can map to earlier
source times. -/
theorem renderPreviewFrames_not_monotone :
    renderPreviewFrames reorderedPreviewProject 2 = [10, 1] ∧
    ¬ List.Chain' (· ≤ ·) (renderPreviewFrames reorderedPreviewProject 2) := by
  have h : renderPreviewFrames reorderedPreviewProject 2 = [10, 1] := by
    with_unfolding_all decide
  refine ⟨h, ?_⟩
  rw [h]
  intro hc
  have hle := (List.chain'_cons.mp hc).1
  have : ¬ ((10:ℚ) ≤ 1) := by norm_num
  exact this hle

/-- C7 (amended): for a non-empty timeline whose scenes are in source order
(each scene's `end` is at most the next scene's `start`) with positive raw
duration and speed, and any `count ≥ 1`, the preview sampler uses
`interval = D / count`, maps the `k`-th sample instant `k * interval` into
the scene whose accumulated window contains it as
`scene.start + (instant - accumulated) * scene.speed`, and produces exactly
`count` strictly increasing source timestamps. -/
theorem renderPreviewFrames_spec (p : Project) (count : ℕ)
    (hne : p.scenes ≠ [])
    (hsc : ∀ s ∈ p.scenes, s.start < s.«end» ∧ 0 < s.speed)
    (hord : p.scenes.Chain' (fun s t => s.«end» ≤ t.start))
    (hcount : 1 ≤ count) :
    (renderPreviewFrames p count).length = count ∧
    List.Chain' (· < ·) (renderPreviewFrames p count) ∧
    (∀ k, k < count →
      ∃ i s, p.scenes[i]? = some s ∧
        prefixDur p.scenes i ≤ (k : ℚ) * ((p.scenes.map Scene.duration).sum / count) ∧
        (k : ℚ) * ((p.scenes.map Scene.duration).sum / count)
          < prefixDur p.scenes (i + 1) ∧
        (renderPreviewFrames p count)[k]? =
          some (s.start + ((k : ℚ) * ((p.scenes.map Scene.duration).sum / count)
            - prefixDur p.scenes i) * s.speed)) := by
  have hDpos : 0 < (p.scenes.map Scene.duration).sum := by
    refine List.sum_pos _ ?_ (by simpa using hne)
    intro q hq
    obtain ⟨s, hs, rfl⟩ := List.mem_map.mp hq
    have h1 := hsc s hs
    exact div_pos (by linarith [h1.1]) h1.2
  have hcpos : (0:ℚ) < (count : ℚ) := by exact_mod_cast hcount
  have hint : 0 < (p.scenes.map Scene.duration).sum / (count : ℚ) := div_pos hDpos hcpos
  have hmax : (max count 1 : ℕ) = count := max_eq_left hcount
  have hrpf : renderPreviewFrames p count
      = previewScenes ((p.scenes.map Scene.duration).sum / (count : ℚ)) count
          p.scenes 0 0 := by
    unfold renderPreviewFrames
    rw [if_neg (ne_of_gt hDpos), hmax]
  obtain ⟨F, hF1, hF2, hlen, hin, hout, hchain, hmem, hmap⟩ :=
    previewScenes_spec ((p.scenes.map Scene.duration).sum / (count : ℚ)) count hint
      p.scenes 0 0 hsc hord (by omega) (fun _ => by simp)
  have hFeq : F = count := by
    by_contra hne2
    have hFlt : F < count := lt_of_le_of_ne hF2 hne2
    have h1 := hout hFlt
    have hFle : (F : ℚ) ≤ (count : ℚ) - 1 := by
      have h2 : F + 1 ≤ count := hFlt
      have h3 : ((F + 1 : ℕ) : ℚ) ≤ ((count : ℕ) : ℚ) := by exact_mod_cast h2
      push_cast at h3
      linarith
    have h2 : (F : ℚ) * ((p.scenes.map Scene.duration).sum / count)
        ≤ ((count : ℚ) - 1) * ((p.scenes.map Scene.duration).sum / count) :=
      mul_le_mul_of_nonneg_right hFle (le_of_lt hint)
    have h3 : ((count : ℚ) - 1) * ((p.scenes.map Scene.duration).sum / count)
        < (p.scenes.map Scene.duration).sum := by
      rw [show ((count : ℚ) - 1) * ((p.scenes.map Scene.duration).sum / count)
          = ((count : ℚ) - 1) * (p.scenes.map Scene.duration).sum / count from by ring]
      rw [div_lt_iff hcpos]
      nlinarith
    rw [zero_add] at h1
    linarith
  subst hFeq
  refine ⟨?_, ?_, ?_⟩
  · rw [hrpf, hlen]
    omega
  · rw [hrpf]
    exact hchain
  · intro k hk
    obtain ⟨i, s, hs, hlow, hhigh, hget⟩ := hmap k (by omega) hk
    rw [zero_add] at hlow hhigh
    rw [Nat.sub_zero, zero_add] at hget
    exact ⟨i, s, hs, hlow, hhigh, by rw [hrpf]; exact hget⟩

/-- Witness for C7 on the ordered two-scene timeline with `count = 5`. -/
theorem renderPreviewFrames_spec_witness :
    (renderPreviewFrames orderedPreviewProject 5).length = 5 ∧
    List.Chain' (· < ·) (renderPreviewFrames orderedPreviewProject 5) ∧
    (∀ k : ℕ, k < 5 →
      ∃ i s, orderedPreviewProject.scenes[i]? = some s ∧
        prefixDur orderedPreviewProject.scenes i
          ≤ (k : ℚ) * ((orderedPreviewProject.scenes.map Scene.duration).sum / 5) ∧
        (k : ℚ) * ((orderedPreviewProject.scenes.map Scene.duration).sum / 5)
          < prefixDur orderedPreviewProject.scenes (i + 1) ∧
        (renderPreviewFrames orderedPreviewProject 5)[k]? =
          some (s.start + ((k : ℚ) * ((orderedPreviewProject.scenes.map Scene.duration).sum / 5)
            - prefixDur orderedPreviewProject.scenes i) * s.speed)) :=
  renderPreviewFrames_spec orderedPreviewProject 5 (by simp [orderedPreviewProject])
    (by with_unfolding_all decide)
    (List.chain'_cons.mpr ⟨by with_unfolding_all decide, List.chain'_singleton _⟩)
    (by norm_num)

end VidKit
